import Mathlib

/-!
Shallow embedding of the mark-and-sweep garbage collector from
src/GarbageCollector.c, together with theorems checking the
specification's claims against it.

Modelling conventions:
* `malloc` is modelled by a fresh-address counter `nextAddr`; the registry
  (the VM's intrusive linked list of Objects anchored at `firstObject`) is
  modelled as an association list `List (Nat × Object)` whose order is the
  chain order (head of the list = `firstObject`); membership in the list
  means "allocated and not yet freed".
* The C `union { int value; struct { Object* head; Object* tail; }; }` is
  modelled as the tagged sum `Payload` (the program only ever reads the
  union member matching the tag).
* `exit(EXIT_FAILURE)` on stack overflow/underflow is modelled by an
  `Except` error that carries the VM state as it is at the moment of the
  exit call.
* The C stack array `stack[STACK_MAX_SIZE]` together with `stackSize` is
  modelled as a list whose length is `stackSize`; `push` writes at index
  `stackSize` (list append), `pop` reads index `stackSize - 1` (last).
* The unbounded recursion of the C `mark` is modelled with an explicit
  fuel parameter; `mark` runs it with fuel `unmarkedCount heap + 1`, which
  is proved sufficient (`markFuel_congr`).
-/

namespace GC

def STACK_MAX_SIZE : Nat := 256

def INITIAL_GC_THRESHOLD : Nat := 16

inductive ObjectType where
  | INT_TYPE
  | PAIR_TYPE
deriving DecidableEq

/-- The payload of the C union: an int value, or the two pair fields
`head` and `tail`, holding addresses of other objects. -/
inductive Payload where
  | intVal (value : Int)
  | pairVal (head tail : Nat)
deriving DecidableEq

structure Object where
  marked : Bool
  payload : Payload
deriving DecidableEq

/-- The registry chain of all allocated objects, in chain order:
the head of the list is `vm->firstObject`, and each entry's successor in
the list is its `next` object. -/
abbrev Heap := List (Nat × Object)

structure VM where
  stack : List Nat
  registry : Heap
  numObjects : Nat
  maxObjects : Nat
  nextAddr : Nat
deriving DecidableEq

/-- `newVM()`. -/
def newVM : VM :=
  { stack := [], registry := [], numObjects := 0,
    maxObjects := INITIAL_GC_THRESHOLD, nextAddr := 0 }

inductive GCError where
  | stackOverflow
  | stackUnderflow
deriving DecidableEq

/-- `push`: the C code signals overflow only when
`vm->stackSize > STACK_MAX_SIZE` (strictly greater), otherwise it writes
`vm->stack[vm->stackSize++] = value`. -/
def push (vm : VM) (value : Nat) : Except (GCError × VM) VM :=
  if vm.stack.length > STACK_MAX_SIZE then .error (.stackOverflow, vm)
  else .ok { vm with stack := vm.stack ++ [value] }

/-- `pop`: the C code signals underflow when `!(vm->stackSize > 0)`,
otherwise it returns `vm->stack[--(vm->stackSize)]`. -/
def pop (vm : VM) : Except (GCError × VM) (VM × Nat) :=
  match vm.stack.getLast? with
  | some v => .ok ({ vm with stack := vm.stack.dropLast }, v)
  | none => .error (.stackUnderflow, vm)

/-- Dereference an object address in the registry. -/
def lookupObj : Heap → Nat → Option Object
  | [], _ => none
  | (k, o) :: rest, a => if k = a then some o else lookupObj rest a

/-- Update the object stored at an address (an in-place field write through
an `Object*` in C). -/
def overObj (heap : Heap) (a : Nat) (f : Object → Object) : Heap :=
  heap.map fun p => if p.1 = a then (p.1, f p.2) else p

/-- `object->marked = 1`. -/
def setMarked (heap : Heap) (a : Nat) : Heap :=
  overObj heap a fun o => { o with marked := true }

/-- `object->value = v` (write of the int member of the union). -/
def setValue (vm : VM) (addr : Nat) (v : Int) : VM :=
  { vm with registry := overObj vm.registry addr fun o => { o with payload := .intVal v } }

/-- `object->head = h` (write of the pair head member; only ever performed
on a PAIR_TYPE object). -/
def setHead (vm : VM) (addr h : Nat) : VM :=
  { vm with registry := overObj vm.registry addr fun o =>
      { o with payload := match o.payload with
                          | .pairVal _ t => .pairVal h t
                          | p => p } }

/-- `object->tail = t` (write of the pair tail member; only ever performed
on a PAIR_TYPE object). -/
def setTail (vm : VM) (addr t : Nat) : VM :=
  { vm with registry := overObj vm.registry addr fun o =>
      { o with payload := match o.payload with
                          | .pairVal h _ => .pairVal h t
                          | p => p } }

/-- Number of registry entries with `marked = 0`; the termination measure
for the recursion of `mark`. -/
def unmarkedCount : Heap → Nat
  | [] => 0
  | (_, o) :: rest => (if o.marked then 0 else 1) + unmarkedCount rest

/-- `mark(object)`, fuel-indexed: return if already marked, else set the
mark and, for a pair, recurse into `head` then `tail`. -/
def markFuel : Nat → Heap → Nat → Heap
  | 0, heap, _ => heap
  | n+1, heap, addr =>
    match lookupObj heap addr with
    | none => heap
    | some obj =>
      if obj.marked then heap
      else
        match obj.payload with
        | .intVal _ => setMarked heap addr
        | .pairVal hd tl => markFuel n (markFuel n (setMarked heap addr) hd) tl

/-- `mark(object)` with sufficient fuel. -/
def mark (heap : Heap) (addr : Nat) : Heap :=
  markFuel (unmarkedCount heap + 1) heap addr

/-- `markAll(vm)`: mark from every stack slot, in index order. -/
def markAll (vm : VM) : VM :=
  { vm with registry := vm.stack.foldl mark vm.registry }

/-- The loop body of `sweep`: an unmarked object is unlinked and freed,
a marked one is unmarked and retained.  Note the C code does NOT decrement
`vm->numObjects` when freeing. -/
def sweepList : Heap → Heap
  | [] => []
  | (a, o) :: rest =>
    if o.marked = false then sweepList rest
    else (a, { o with marked := false }) :: sweepList rest

/-- `sweep(vm)`. -/
def sweep (vm : VM) : VM :=
  { vm with registry := sweepList vm.registry }

/-- `gc(vm)`: markAll, sweep, then `vm->maxObjects = vm->numObjects * 2`
(with `vm->numObjects` as sweep left it; the local `int numObjects`
snapshot in the C code is dead and omitted). -/
def gc (vm : VM) : VM :=
  let vm1 := sweep (markAll vm)
  { vm1 with maxObjects := vm1.numObjects * 2 }

/-- Contents of a freshly malloc'd union before the caller writes it. -/
def initPayload : ObjectType → Payload
  | .INT_TYPE => .intVal 0
  | .PAIR_TYPE => .pairVal 0 0

/-- `newObject(vm, type)`: run `gc` when `numObjects == maxObjects`, then
allocate, initialise `marked = 0`, link at the head of the registry chain
and increment `numObjects`. -/
def newObject (vm : VM) (t : ObjectType) : VM × Nat :=
  let vm1 := if vm.numObjects = vm.maxObjects then gc vm else vm
  let addr := vm1.nextAddr
  ({ vm1 with
      registry := (addr, { marked := false, payload := initPayload t }) :: vm1.registry,
      numObjects := vm1.numObjects + 1,
      nextAddr := addr + 1 }, addr)

/-- `pushInt(vm, intValue)`. -/
def pushInt (vm : VM) (intValue : Int) : Except (GCError × VM) VM :=
  let r := newObject vm .INT_TYPE
  push (setValue r.1 r.2 intValue) r.2

/-- `pushPair(vm)`: allocate the pair first, then `object->tail = pop(vm);
object->head = pop(vm); push(vm, object)`. -/
def pushPair (vm : VM) : Except (GCError × VM) (VM × Nat) :=
  let r := newObject vm .PAIR_TYPE
  match pop r.1 with
  | .error e => .error e
  | .ok (vm2, t) =>
    match pop (setTail vm2 r.2 t) with
    | .error e => .error e
    | .ok (vm3, h) =>
      match push (setHead vm3 r.2 h) r.2 with
      | .error e => .error e
      | .ok vm4 => .ok (vm4, r.2)

/-! ## Specification-side predicates -/

/-- The addresses present in the registry chain. -/
def heapKeys (heap : Heap) : List Nat :=
  heap.map Prod.fst

/-- The object at address `a` exists and is marked. -/
def markedIn (heap : Heap) (a : Nat) : Prop :=
  ∃ o, lookupObj heap a = some o ∧ o.marked = true

/-- Reachability from a root list by zero or more pair-field traversals. -/
inductive Reachable (heap : Heap) (roots : List Nat) : Nat → Prop where
  | root (a : Nat) : a ∈ roots → Reachable heap roots a
  | head (p hd tl : Nat) (o : Object) : Reachable heap roots p →
      lookupObj heap p = some o → o.payload = .pairVal hd tl →
      Reachable heap roots hd
  | tail (p hd tl : Nat) (o : Object) : Reachable heap roots p →
      lookupObj heap p = some o → o.payload = .pairVal hd tl →
      Reachable heap roots tl

/-- A payload's pair fields (if any) point into the registry. -/
def payloadClosed (heap : Heap) : Payload → Prop
  | .intVal _ => True
  | .pairVal hd tl => hd ∈ heapKeys heap ∧ tl ∈ heapKeys heap

instance (heap : Heap) : (p : Payload) → Decidable (payloadClosed heap p)
  | .intVal _ => isTrue trivial
  | .pairVal _ _ => inferInstanceAs (Decidable (_ ∧ _))

/-- Every object in the registry is unmarked. -/
def AllUnmarked (vm : VM) : Prop :=
  ∀ p ∈ vm.registry, p.2.marked = false

instance (vm : VM) : Decidable (AllUnmarked vm) :=
  inferInstanceAs (Decidable (∀ p ∈ vm.registry, p.2.marked = false))

/-- Well-formed VM state (as holds between public operations): distinct
addresses, stack entries and pair fields point into the registry, and all
objects are unmarked. -/
def WF (vm : VM) : Prop :=
  (heapKeys vm.registry).Nodup ∧
  (∀ a ∈ vm.stack, a ∈ heapKeys vm.registry) ∧
  (∀ p ∈ vm.registry, payloadClosed vm.registry p.2.payload) ∧
  (∀ p ∈ vm.registry, p.2.marked = false)

instance (vm : VM) : Decidable (WF vm) :=
  inferInstanceAs (Decidable (_ ∧ _ ∧ _ ∧ _))

instance {ε α : Type} [DecidableEq ε] [DecidableEq α] : DecidableEq (Except ε α) :=
  fun x y =>
    match x, y with
    | .ok a, .ok b =>
      if h : a = b then isTrue (by rw [h]) else isFalse (fun hc => h (Except.ok.inj hc))
    | .error a, .error b =>
      if h : a = b then isTrue (by rw [h]) else isFalse (fun hc => h (Except.error.inj hc))
    | .ok _, .error _ => isFalse (fun hc => Except.noConfusion hc)
    | .error _, .ok _ => isFalse (fun hc => Except.noConfusion hc)

/-! ## Basic lemmas about the registry heap -/

theorem lookupObj_eq_none_iff (h : Heap) (a : Nat) :
    lookupObj h a = none ↔ a ∉ heapKeys h := by
  induction h with
  | nil => simp [lookupObj, heapKeys]
  | cons p rest ih =>
    obtain ⟨k, o⟩ := p
    by_cases hk : k = a
    · subst hk; simp [lookupObj, heapKeys]
    · simp [lookupObj, heapKeys, hk, Ne.symm hk] at ih ⊢
      simpa [heapKeys] using ih

theorem mem_heapKeys_of_lookup {h : Heap} {a : Nat} {o : Object}
    (hl : lookupObj h a = some o) : a ∈ heapKeys h := by
  by_contra hmem
  rw [← lookupObj_eq_none_iff] at hmem
  rw [hmem] at hl
  exact Option.noConfusion hl

theorem lookup_mem {h : Heap} {a : Nat} {o : Object}
    (hl : lookupObj h a = some o) : (a, o) ∈ h := by
  induction h with
  | nil => exact Option.noConfusion hl
  | cons p rest ih =>
    obtain ⟨k, o2⟩ := p
    by_cases hk : k = a
    · subst hk
      simp [lookupObj] at hl
      subst hl
      exact List.mem_cons_self _ _
    · simp [lookupObj, hk] at hl
      exact List.mem_cons_of_mem _ (ih hl)

theorem overObj_cons (k : Nat) (o : Object) (rest : Heap) (a : Nat) (f : Object → Object) :
    overObj ((k, o) :: rest) a f =
      (if k = a then (k, f o) else (k, o)) :: overObj rest a f := by
  by_cases hk : k = a <;> simp [overObj, hk]

theorem heapKeys_overObj (h : Heap) (a : Nat) (f : Object → Object) :
    heapKeys (overObj h a f) = heapKeys h := by
  induction h with
  | nil => rfl
  | cons p rest ih =>
    obtain ⟨k, o⟩ := p
    rw [overObj_cons]
    by_cases hk : k = a
    · rw [if_pos hk]; simp [heapKeys] at ih ⊢; exact ih
    · rw [if_neg hk]; simp [heapKeys] at ih ⊢; exact ih

theorem lookupObj_overObj (h : Heap) (a : Nat) (f : Object → Object) (b : Nat) :
    lookupObj (overObj h a f) b =
      (lookupObj h b).map (fun o => if b = a then f o else o) := by
  induction h with
  | nil => rfl
  | cons p rest ih =>
    obtain ⟨k, o⟩ := p
    rw [overObj_cons]
    by_cases hk : k = a
    · rw [if_pos hk]
      by_cases hb : k = b
      · subst hk; subst hb
        simp [lookupObj]
      · subst hk
        simp [lookupObj, hb, ih]
    · rw [if_neg hk]
      by_cases hb : k = b
      · subst hb
        simp [lookupObj, hk]
      · simp [lookupObj, hb, ih]

theorem heapKeys_setMarked (h : Heap) (a : Nat) :
    heapKeys (setMarked h a) = heapKeys h :=
  heapKeys_overObj h a _

theorem lookupObj_setMarked (h : Heap) (a b : Nat) :
    lookupObj (setMarked h a) b =
      (lookupObj h b).map (fun o => if b = a then { o with marked := true } else o) :=
  lookupObj_overObj h a _ b

theorem lookupObj_setMarked_self {h : Heap} {a : Nat} {o : Object}
    (hl : lookupObj h a = some o) :
    lookupObj (setMarked h a) a = some { o with marked := true } := by
  rw [lookupObj_setMarked, hl]
  simp

theorem lookupObj_setMarked_other {h : Heap} {a b : Nat} (hne : b ≠ a) :
    lookupObj (setMarked h a) b = lookupObj h b := by
  rw [lookupObj_setMarked]
  cases lookupObj h b <;> simp [hne]

theorem markedIn_setMarked_of {h : Heap} {a b : Nat}
    (hm : markedIn h b) : markedIn (setMarked h a) b := by
  obtain ⟨o, hl, ho⟩ := hm
  by_cases hb : b = a
  · subst hb
    exact ⟨_, lookupObj_setMarked_self hl, rfl⟩
  · exact ⟨o, by rw [lookupObj_setMarked_other hb]; exact hl, ho⟩

/-! ## The unmarked-object count, the termination measure of `mark` -/

theorem unmarkedCount_setMarked_le (h : Heap) (a : Nat) :
    unmarkedCount (setMarked h a) ≤ unmarkedCount h := by
  induction h with
  | nil => exact Nat.le_refl _
  | cons p rest ih =>
    obtain ⟨k, o⟩ := p
    rw [setMarked, overObj_cons]
    by_cases hk : k = a
    · rw [if_pos hk]
      simp only [unmarkedCount]
      have : unmarkedCount (overObj rest a _) ≤ unmarkedCount rest := ih
      cases hm : o.marked <;> simp [setMarked] at this ⊢ <;> omega
    · rw [if_neg hk]
      simp only [unmarkedCount]
      have : unmarkedCount (overObj rest a _) ≤ unmarkedCount rest := ih
      simp [setMarked] at this
      omega

theorem unmarkedCount_setMarked_lt {h : Heap} {a : Nat} {o : Object}
    (hl : lookupObj h a = some o) (hm : o.marked = false) :
    unmarkedCount (setMarked h a) < unmarkedCount h := by
  induction h with
  | nil => exact Option.noConfusion hl
  | cons p rest ih =>
    obtain ⟨k, o2⟩ := p
    rw [setMarked, overObj_cons]
    by_cases hk : k = a
    · rw [if_pos hk]
      subst hk
      simp [lookupObj] at hl
      subst hl
      simp only [unmarkedCount, hm]
      have := unmarkedCount_setMarked_le rest k
      simp [setMarked] at this
      simp
      omega
    · rw [if_neg hk]
      simp [lookupObj, hk] at hl
      have := ih hl
      simp [setMarked] at this
      simp only [unmarkedCount]
      omega

theorem unmarkedCount_pos {h : Heap} {a : Nat} {o : Object}
    (hl : lookupObj h a = some o) (hm : o.marked = false) :
    0 < unmarkedCount h := by
  induction h with
  | nil => exact Option.noConfusion hl
  | cons p rest ih =>
    obtain ⟨k, o2⟩ := p
    by_cases hk : k = a
    · subst hk
      simp [lookupObj] at hl
      subst hl
      simp [unmarkedCount, hm]
    · simp [lookupObj, hk] at hl
      have := ih hl
      simp only [unmarkedCount]
      omega

/-! ## Evolution of the heap under marking: only mark bits are raised -/

/-- `h'` is obtained from `h` by raising some mark bits: same addresses in
the same order of significance for lookup, same payloads, marks only go up. -/
structure MarkEvol (h h' : Heap) : Prop where
  keys_eq : heapKeys h' = heapKeys h
  look : ∀ b o, lookupObj h b = some o →
    ∃ o2, lookupObj h' b = some o2 ∧ o2.payload = o.payload ∧
      (o.marked = true → o2.marked = true)

theorem MarkEvol.refl (h : Heap) : MarkEvol h h :=
  ⟨rfl, fun _ o hl => ⟨o, hl, rfl, fun hm => hm⟩⟩

theorem MarkEvol.trans {h1 h2 h3 : Heap}
    (e1 : MarkEvol h1 h2) (e2 : MarkEvol h2 h3) : MarkEvol h1 h3 := by
  refine ⟨e1.keys_eq ▸ e2.keys_eq, fun b o hl => ?_⟩
  obtain ⟨o2, hl2, hp2, hm2⟩ := e1.look b o hl
  obtain ⟨o3, hl3, hp3, hm3⟩ := e2.look b o2 hl2
  exact ⟨o3, hl3, hp3.trans hp2, fun hm => hm3 (hm2 hm)⟩

theorem MarkEvol.markedIn_mono {h h' : Heap} (e : MarkEvol h h') {b : Nat}
    (hm : markedIn h b) : markedIn h' b := by
  obtain ⟨o, hl, ho⟩ := hm
  obtain ⟨o2, hl2, _, hm2⟩ := e.look b o hl
  exact ⟨o2, hl2, hm2 ho⟩

theorem MarkEvol.setMarked (h : Heap) (a : Nat) : MarkEvol h (setMarked h a) := by
  refine ⟨heapKeys_setMarked h a, fun b o hl => ?_⟩
  by_cases hb : b = a
  · subst hb
    exact ⟨_, lookupObj_setMarked_self hl, rfl, fun _ => rfl⟩
  · exact ⟨o, by rw [lookupObj_setMarked_other hb]; exact hl, rfl, fun hm => hm⟩

theorem markFuel_lookup_none {h : Heap} {a : Nat} (n : Nat)
    (hl : lookupObj h a = none) : markFuel (n+1) h a = h := by
  simp [GC.markFuel, hl]

theorem markFuel_lookup_marked {h : Heap} {a : Nat} {o : Object} (n : Nat)
    (hl : lookupObj h a = some o) (hm : o.marked = true) :
    markFuel (n+1) h a = h := by
  simp [GC.markFuel, hl, hm]

theorem markFuel_lookup_int {h : Heap} {a : Nat} {o : Object} {v : Int} (n : Nat)
    (hl : lookupObj h a = some o) (hm : o.marked = false)
    (hp : o.payload = .intVal v) : markFuel (n+1) h a = setMarked h a := by
  simp [GC.markFuel, hl, hm, hp]

theorem markFuel_lookup_pair {h : Heap} {a : Nat} {o : Object} {hd tl : Nat} (n : Nat)
    (hl : lookupObj h a = some o) (hm : o.marked = false)
    (hp : o.payload = .pairVal hd tl) :
    markFuel (n+1) h a = markFuel n (markFuel n (setMarked h a) hd) tl := by
  simp [GC.markFuel, hl, hm, hp]

theorem MarkEvol.markFuel : ∀ (n : Nat) (h : Heap) (a : Nat), MarkEvol h (markFuel n h a) := by
  intro n
  induction n with
  | zero => intro h a; exact MarkEvol.refl h
  | succ n ih =>
    intro h a
    cases hl : lookupObj h a with
    | none => rw [markFuel_lookup_none n hl]; exact MarkEvol.refl h
    | some o =>
      cases hm : o.marked with
      | true => rw [markFuel_lookup_marked n hl hm]; exact MarkEvol.refl h
      | false =>
        cases hp : o.payload with
        | intVal v =>
          rw [markFuel_lookup_int n hl hm hp]
          exact MarkEvol.setMarked h a
        | pairVal hd tl =>
          rw [markFuel_lookup_pair n hl hm hp]
          exact ((MarkEvol.setMarked h a).trans (ih _ hd)).trans (ih _ tl)

theorem unmarkedCount_markFuel_le :
    ∀ (n : Nat) (h : Heap) (a : Nat), unmarkedCount (markFuel n h a) ≤ unmarkedCount h := by
  intro n
  induction n with
  | zero => intro h a; exact Nat.le_refl _
  | succ n ih =>
    intro h a
    cases hl : lookupObj h a with
    | none => rw [markFuel_lookup_none n hl]
    | some o =>
      cases hm : o.marked with
      | true => rw [markFuel_lookup_marked n hl hm]
      | false =>
        cases hp : o.payload with
        | intVal v =>
          rw [markFuel_lookup_int n hl hm hp]
          exact unmarkedCount_setMarked_le h a
        | pairVal hd tl =>
          rw [markFuel_lookup_pair n hl hm hp]
          calc unmarkedCount (markFuel n (markFuel n (setMarked h a) hd) tl)
              ≤ unmarkedCount (markFuel n (setMarked h a) hd) := ih _ tl
            _ ≤ unmarkedCount (setMarked h a) := ih _ hd
            _ ≤ unmarkedCount h := unmarkedCount_setMarked_le h a

/-! ## Correctness of the mark phase -/

/-- Mark-closure except at an excluded set of in-progress nodes: every
marked pair outside `A` has both of its in-registry fields marked. -/
def InvExc (heap : Heap) (A : Nat → Prop) : Prop :=
  ∀ b o hd tl, ¬ A b → lookupObj heap b = some o → o.marked = true →
    o.payload = .pairVal hd tl →
    (hd ∈ heapKeys heap → markedIn heap hd) ∧ (tl ∈ heapKeys heap → markedIn heap tl)

theorem InvExc_setMarked {heap : Heap} {A : Nat → Prop} {a : Nat}
    (hinv : InvExc heap A) :
    InvExc (setMarked heap a) (fun b => A b ∨ b = a) := by
  intro b o2 hd2 tl2 hnA hlook hmark hpay
  have hba : b ≠ a := fun he => hnA (Or.inr he)
  have hnAb : ¬ A b := fun hA => hnA (Or.inl hA)
  rw [lookupObj_setMarked_other hba] at hlook
  obtain ⟨h1, h2⟩ := hinv b o2 hd2 tl2 hnAb hlook hmark hpay
  rw [heapKeys_setMarked]
  exact ⟨fun hmem => markedIn_setMarked_of (h1 hmem),
         fun hmem => markedIn_setMarked_of (h2 hmem)⟩

theorem InvExc_setMarked_int {heap : Heap} {A : Nat → Prop} {a : Nat} {o : Object} {v : Int}
    (hinv : InvExc heap A) (hl : lookupObj heap a = some o)
    (hp : o.payload = .intVal v) :
    InvExc (setMarked heap a) A := by
  intro b o2 hd2 tl2 hnA hlook hmark hpay
  by_cases hba : b = a
  · subst hba
    rw [lookupObj_setMarked_self hl] at hlook
    injection hlook with he
    rw [← he, hp] at hpay
    exact Payload.noConfusion hpay
  · rw [lookupObj_setMarked_other hba] at hlook
    obtain ⟨h1, h2⟩ := hinv b o2 hd2 tl2 hnA hlook hmark hpay
    rw [heapKeys_setMarked]
    exact ⟨fun hmem => markedIn_setMarked_of (h1 hmem),
           fun hmem => markedIn_setMarked_of (h2 hmem)⟩

/-- Main invariant of the recursive mark: with sufficient fuel, marking
preserves mark-closure (outside the in-progress set) and marks its
argument. -/
theorem markFuel_inv :
    ∀ (k : Nat) (heap : Heap) (a n : Nat) (A : Nat → Prop),
      unmarkedCount heap ≤ k → unmarkedCount heap < n → InvExc heap A →
      InvExc (markFuel n heap a) A ∧
        (a ∈ heapKeys heap → markedIn (markFuel n heap a) a) := by
  intro k
  induction k with
  | zero =>
    intro heap a n A hk hn hinv
    obtain ⟨m, rfl⟩ : ∃ m, n = m + 1 := ⟨n - 1, by omega⟩
    cases hl : lookupObj heap a with
    | none =>
      rw [markFuel_lookup_none m hl]
      refine ⟨hinv, fun hmem => ?_⟩
      exact absurd hmem ((lookupObj_eq_none_iff heap a).mp hl)
    | some o =>
      cases hmo : o.marked with
      | true =>
        rw [markFuel_lookup_marked m hl hmo]
        exact ⟨hinv, fun _ => ⟨o, hl, hmo⟩⟩
      | false =>
        exact absurd (unmarkedCount_pos hl hmo) (by omega)
  | succ k ih =>
    intro heap a n A hk hn hinv
    obtain ⟨m, rfl⟩ : ∃ m, n = m + 1 := ⟨n - 1, by omega⟩
    cases hl : lookupObj heap a with
    | none =>
      rw [markFuel_lookup_none m hl]
      refine ⟨hinv, fun hmem => ?_⟩
      exact absurd hmem ((lookupObj_eq_none_iff heap a).mp hl)
    | some o =>
      cases hmo : o.marked with
      | true =>
        rw [markFuel_lookup_marked m hl hmo]
        exact ⟨hinv, fun _ => ⟨o, hl, hmo⟩⟩
      | false =>
        cases hp : o.payload with
        | intVal v =>
          rw [markFuel_lookup_int m hl hmo hp]
          exact ⟨InvExc_setMarked_int hinv hl hp,
                 fun _ => ⟨_, lookupObj_setMarked_self hl, rfl⟩⟩
        | pairVal hd tl =>
          rw [markFuel_lookup_pair m hl hmo hp]
          have hinv2 : InvExc (setMarked heap a) (fun b => A b ∨ b = a) :=
            InvExc_setMarked hinv
          have huc2 : unmarkedCount (setMarked heap a) < unmarkedCount heap :=
            unmarkedCount_setMarked_lt hl hmo
          have h2k : unmarkedCount (setMarked heap a) ≤ k := by omega
          have h2m : unmarkedCount (setMarked heap a) < m := by omega
          obtain ⟨hinvM1, hhd⟩ :=
            ih (setMarked heap a) hd m (fun b => A b ∨ b = a) h2k h2m hinv2
          have hM1k : unmarkedCount (markFuel m (setMarked heap a) hd) ≤ k :=
            le_trans (unmarkedCount_markFuel_le m _ hd) h2k
          have hM1m : unmarkedCount (markFuel m (setMarked heap a) hd) < m :=
            lt_of_le_of_lt (unmarkedCount_markFuel_le m _ hd) h2m
          obtain ⟨hinvM2, htl⟩ :=
            ih (markFuel m (setMarked heap a) hd) tl m (fun b => A b ∨ b = a)
              hM1k hM1m hinvM1
          have evol2 : MarkEvol (setMarked heap a) (markFuel m (setMarked heap a) hd) :=
            MarkEvol.markFuel m _ hd
          have evol3 : MarkEvol (markFuel m (setMarked heap a) hd)
              (markFuel m (markFuel m (setMarked heap a) hd) tl) :=
            MarkEvol.markFuel m _ tl
          have evolAll : MarkEvol (setMarked heap a)
              (markFuel m (markFuel m (setMarked heap a) hd) tl) :=
            evol2.trans evol3
          have hkeysAll : heapKeys (markFuel m (markFuel m (setMarked heap a) hd) tl) =
              heapKeys heap := by
            rw [evolAll.keys_eq, heapKeys_setMarked]
          constructor
          · intro b o2 hd2 tl2 hnA hlook hmark hpay
            by_cases hba : b = a
            · subst hba
              have hla2 : lookupObj (setMarked heap b) b = some { o with marked := true } :=
                lookupObj_setMarked_self hl
              obtain ⟨o3, hlo3, hpo3, _⟩ := evolAll.look b _ hla2
              rw [hlook] at hlo3
              injection hlo3 with he
              rw [← he] at hpo3
              rw [hpay] at hpo3
              simp only [hp] at hpo3
              injection hpo3 with he1 he2
              subst he1; subst he2
              constructor
              · intro hmem
                have hmem2 : hd2 ∈ heapKeys (setMarked heap b) := by
                  rw [heapKeys_setMarked]
                  rw [hkeysAll] at hmem
                  exact hmem
                exact evol3.markedIn_mono (hhd hmem2)
              · intro hmem
                have hmem2 : tl2 ∈ heapKeys (markFuel m (setMarked heap b) hd2) := by
                  rw [evol3.keys_eq] at hmem
                  exact hmem
                exact htl hmem2
            · have hnA2 : ¬ (A b ∨ b = a) := by
                rintro (hA | he)
                · exact hnA hA
                · exact hba he
              exact hinvM2 b o2 hd2 tl2 hnA2 hlook hmark hpay
          · intro _
            exact evolAll.markedIn_mono ⟨_, lookupObj_setMarked_self hl, rfl⟩

/-- The fuel of `markFuel` is irrelevant once it exceeds the number of
unmarked objects: the recursion of the C `mark` terminates on every
object graph. -/
theorem markFuel_congr :
    ∀ (k : Nat) (heap : Heap) (a m n : Nat),
      unmarkedCount heap ≤ k → unmarkedCount heap < m → unmarkedCount heap < n →
      markFuel m heap a = markFuel n heap a := by
  intro k
  induction k with
  | zero =>
    intro heap a m n hk hm hn
    obtain ⟨m0, rfl⟩ : ∃ m0, m = m0 + 1 := ⟨m - 1, by omega⟩
    obtain ⟨n0, rfl⟩ : ∃ n0, n = n0 + 1 := ⟨n - 1, by omega⟩
    cases hl : lookupObj heap a with
    | none => rw [markFuel_lookup_none m0 hl, markFuel_lookup_none n0 hl]
    | some o =>
      cases hmo : o.marked with
      | true => rw [markFuel_lookup_marked m0 hl hmo, markFuel_lookup_marked n0 hl hmo]
      | false => exact absurd (unmarkedCount_pos hl hmo) (by omega)
  | succ k ih =>
    intro heap a m n hk hm hn
    obtain ⟨m0, rfl⟩ : ∃ m0, m = m0 + 1 := ⟨m - 1, by omega⟩
    obtain ⟨n0, rfl⟩ : ∃ n0, n = n0 + 1 := ⟨n - 1, by omega⟩
    cases hl : lookupObj heap a with
    | none => rw [markFuel_lookup_none m0 hl, markFuel_lookup_none n0 hl]
    | some o =>
      cases hmo : o.marked with
      | true => rw [markFuel_lookup_marked m0 hl hmo, markFuel_lookup_marked n0 hl hmo]
      | false =>
        cases hp : o.payload with
        | intVal v => rw [markFuel_lookup_int m0 hl hmo hp, markFuel_lookup_int n0 hl hmo hp]
        | pairVal hd tl =>
          rw [markFuel_lookup_pair m0 hl hmo hp, markFuel_lookup_pair n0 hl hmo hp]
          have huc2 : unmarkedCount (setMarked heap a) < unmarkedCount heap :=
            unmarkedCount_setMarked_lt hl hmo
          have e1 : markFuel m0 (setMarked heap a) hd = markFuel n0 (setMarked heap a) hd :=
            ih (setMarked heap a) hd m0 n0 (by omega) (by omega) (by omega)
          rw [← e1]
          exact ih (markFuel m0 (setMarked heap a) hd) tl m0 n0
            (le_trans (unmarkedCount_markFuel_le m0 _ hd) (by omega))
            (lt_of_le_of_lt (unmarkedCount_markFuel_le m0 _ hd) (by omega))
            (lt_of_le_of_lt (unmarkedCount_markFuel_le m0 _ hd) (by omega))

/-- The fold of `markAll` over the stack preserves mark-closure and marks
every root that is in the registry. -/
theorem foldMark_spec :
    ∀ (roots : List Nat) (heap : Heap), InvExc heap (fun _ => False) →
      MarkEvol heap (roots.foldl mark heap) ∧
      InvExc (roots.foldl mark heap) (fun _ => False) ∧
      (∀ r ∈ roots, r ∈ heapKeys heap → markedIn (roots.foldl mark heap) r) := by
  intro roots
  induction roots with
  | nil =>
    intro heap hinv
    exact ⟨MarkEvol.refl heap, hinv, by simp⟩
  | cons r rs ih =>
    intro heap hinv
    obtain ⟨hinv1, hr1⟩ :=
      markFuel_inv (unmarkedCount heap) heap r (unmarkedCount heap + 1) (fun _ => False)
        (Nat.le_refl _) (Nat.lt_succ_self _) hinv
    have hinv1m : InvExc (mark heap r) (fun _ => False) := hinv1
    have hr1m : r ∈ heapKeys heap → markedIn (mark heap r) r := hr1
    have hev1 : MarkEvol heap (mark heap r) := MarkEvol.markFuel _ heap r
    obtain ⟨hev2, hinv2, hrest⟩ := ih (mark heap r) hinv1m
    rw [List.foldl_cons]
    refine ⟨hev1.trans hev2, hinv2, fun x hx hmemx => ?_⟩
    cases List.mem_cons.mp hx with
    | inl he =>
      subst he
      exact hev2.markedIn_mono (hr1m hmemx)
    | inr hxs =>
      refine hrest x hxs ?_
      rw [hev1.keys_eq]
      exact hmemx

/-- After a completed mark phase, every object reachable from the roots is
marked. -/
theorem reachable_markedIn {heap Hf : Heap} {roots : List Nat}
    (hev : MarkEvol heap Hf) (hinv : InvExc Hf (fun _ => False))
    (hroots : ∀ r ∈ roots, r ∈ heapKeys heap → markedIn Hf r)
    (hrin : ∀ r ∈ roots, r ∈ heapKeys heap)
    (hclosed : ∀ p ∈ heap, payloadClosed heap p.2.payload) :
    ∀ b, Reachable heap roots b → markedIn Hf b := by
  intro b hr
  induction hr with
  | root a ha => exact hroots a ha (hrin a ha)
  | head p hd tl o hp hlook hpay ihp =>
    obtain ⟨o2, hlo2, hpo2, _⟩ := hev.look p o hlook
    obtain ⟨o3, hlo3, hm3⟩ := ihp
    rw [hlo2] at hlo3
    injection hlo3 with he
    subst he
    have hpair : o2.payload = .pairVal hd tl := by rw [hpo2, hpay]
    have hmemhd : hd ∈ heapKeys heap := by
      have hpc := hclosed (p, o) (lookup_mem hlook)
      rw [hpay] at hpc
      exact hpc.1
    have := hinv p o2 hd tl not_false hlo2 hm3 hpair
    refine this.1 ?_
    rw [hev.keys_eq]
    exact hmemhd
  | tail p hd tl o hp hlook hpay ihp =>
    obtain ⟨o2, hlo2, hpo2, _⟩ := hev.look p o hlook
    obtain ⟨o3, hlo3, hm3⟩ := ihp
    rw [hlo2] at hlo3
    injection hlo3 with he
    subst he
    have hpair : o2.payload = .pairVal hd tl := by rw [hpo2, hpay]
    have hmemtl : tl ∈ heapKeys heap := by
      have hpc := hclosed (p, o) (lookup_mem hlook)
      rw [hpay] at hpc
      exact hpc.2
    have := hinv p o2 hd tl not_false hlo2 hm3 hpair
    refine this.2 ?_
    rw [hev.keys_eq]
    exact hmemtl

/-! ## Lemmas about the sweep phase -/

theorem mem_sweepList_of_marked {h : Heap} {b : Nat}
    (hm : markedIn h b) : b ∈ heapKeys (sweepList h) := by
  induction h with
  | nil =>
    obtain ⟨o, hl, _⟩ := hm
    exact Option.noConfusion hl
  | cons p rest ih =>
    obtain ⟨k, o⟩ := p
    obtain ⟨o2, hl, hmo⟩ := hm
    by_cases hk : k = b
    · subst hk
      simp [lookupObj] at hl
      subst hl
      simp [sweepList, hmo, heapKeys]
    · simp [lookupObj, hk] at hl
      have hmem := ih ⟨o2, hl, hmo⟩
      cases hmo2 : o.marked with
      | false => simpa [sweepList, hmo2] using hmem
      | true =>
        simp [sweepList, hmo2, heapKeys]
        right
        simpa [heapKeys] using hmem

theorem sweepList_allUnmarked (h : Heap) :
    ∀ p ∈ sweepList h, p.2.marked = false := by
  induction h with
  | nil => intro p hp; exact absurd hp (List.not_mem_nil p)
  | cons q rest ih =>
    obtain ⟨k, o⟩ := q
    intro p hp
    cases hmo : o.marked with
    | false =>
      rw [sweepList, if_pos (by rw [hmo])] at hp
      exact ih p hp
    | true =>
      rw [sweepList, if_neg (by rw [hmo]; exact Bool.noConfusion)] at hp
      cases List.mem_cons.mp hp with
      | inl he => rw [he]
      | inr hm => exact ih p hm

/-! ## Computation lemmas for the mutator operations -/

theorem gc_stack (vm : VM) : (gc vm).stack = vm.stack := rfl

theorem gc_numObjects (vm : VM) : (gc vm).numObjects = vm.numObjects := rfl

theorem gc_nextAddr (vm : VM) : (gc vm).nextAddr = vm.nextAddr := rfl

theorem gc_registry (vm : VM) :
    (gc vm).registry = sweepList (vm.stack.foldl mark vm.registry) := rfl

theorem newObject_eq (vm : VM) (t : ObjectType) :
    newObject vm t =
      ({ stack := vm.stack,
         registry := (vm.nextAddr, ⟨false, initPayload t⟩) ::
           (if vm.numObjects = vm.maxObjects then gc vm else vm).registry,
         numObjects := vm.numObjects + 1,
         maxObjects := (if vm.numObjects = vm.maxObjects then gc vm else vm).maxObjects,
         nextAddr := vm.nextAddr + 1 }, vm.nextAddr) := by
  by_cases h : vm.numObjects = vm.maxObjects
  · simp only [newObject]
    rw [if_pos h]
    exact rfl
  · simp only [newObject]
    rw [if_neg h]

theorem newObject_stack (vm : VM) (t : ObjectType) :
    (newObject vm t).1.stack = vm.stack := by
  rw [newObject_eq]

theorem newObject_numObjects (vm : VM) (t : ObjectType) :
    (newObject vm t).1.numObjects = vm.numObjects + 1 := by
  rw [newObject_eq]

theorem newObject_addr (vm : VM) (t : ObjectType) :
    (newObject vm t).2 = vm.nextAddr := by
  rw [newObject_eq]

theorem newObject_registry (vm : VM) (t : ObjectType) :
    (newObject vm t).1.registry =
      (vm.nextAddr, ⟨false, initPayload t⟩) ::
        (if vm.numObjects = vm.maxObjects then gc vm else vm).registry := by
  rw [newObject_eq]

theorem setTail_stack (vm : VM) (a t : Nat) : (setTail vm a t).stack = vm.stack := rfl

theorem setTail_numObjects (vm : VM) (a t : Nat) :
    (setTail vm a t).numObjects = vm.numObjects := rfl

theorem setTail_registry (vm : VM) (a t : Nat) :
    (setTail vm a t).registry = overObj vm.registry a (fun o =>
      { o with payload := match o.payload with
                          | .pairVal h _ => .pairVal h t
                          | p => p }) := rfl

theorem setHead_stack (vm : VM) (a h : Nat) : (setHead vm a h).stack = vm.stack := rfl

theorem setHead_numObjects (vm : VM) (a h : Nat) :
    (setHead vm a h).numObjects = vm.numObjects := rfl

theorem setHead_registry (vm : VM) (a h : Nat) :
    (setHead vm a h).registry = overObj vm.registry a (fun o =>
      { o with payload := match o.payload with
                          | .pairVal _ t => .pairVal h t
                          | p => p }) := rfl

theorem pop_ok {vm : VM} {v : Nat} (h : vm.stack.getLast? = some v) :
    pop vm = .ok ({ vm with stack := vm.stack.dropLast }, v) := by
  simp [pop, h]

theorem pop_error {vm : VM} (h : vm.stack = []) :
    pop vm = .error (.stackUnderflow, vm) := by
  simp [pop, h]

theorem push_ok {vm : VM} {v : Nat} (h : ¬ vm.stack.length > STACK_MAX_SIZE) :
    push vm v = .ok { vm with stack := vm.stack ++ [v] } := by
  simp [push, h]

theorem push_error_eq {vm : VM} {v : Nat} {e : GCError} {w : VM}
    (h : push vm v = .error (e, w)) : e = .stackOverflow ∧ w = vm := by
  by_cases hc : vm.stack.length > STACK_MAX_SIZE
  · simp [push, hc] at h
    exact ⟨h.1.symm, h.2.symm⟩
  · simp [push, hc] at h

theorem pop_error_eq {vm : VM} {e : GCError} {w : VM}
    (h : pop vm = .error (e, w)) : e = .stackUnderflow ∧ w = vm := by
  cases hg : vm.stack.getLast? with
  | some v => simp [pop, hg] at h
  | none =>
    simp [pop, hg] at h
    exact ⟨h.1.symm, h.2.symm⟩

theorem push_ok_registry {vm w : VM} {v : Nat}
    (h : push vm v = .ok w) : w.registry = vm.registry ∧ w.numObjects = vm.numObjects := by
  by_cases hc : vm.stack.length > STACK_MAX_SIZE
  · simp [push, hc] at h
  · simp [push, hc] at h
    rw [← h]
    exact ⟨rfl, rfl⟩

theorem pop_ok_registry {vm w : VM} {x : Nat}
    (h : pop vm = .ok (w, x)) : w.registry = vm.registry ∧ w.numObjects = vm.numObjects := by
  cases hg : vm.stack.getLast? with
  | some v =>
    simp [pop, hg] at h
    rw [← h.1]
    exact ⟨rfl, rfl⟩
  | none => simp [pop, hg] at h

theorem pop_ok_ex {vm : VM} {v : Nat} (h : vm.stack.getLast? = some v) :
    ∃ w, pop vm = .ok (w, v) ∧ w.stack = vm.stack.dropLast ∧
      w.registry = vm.registry ∧ w.numObjects = vm.numObjects ∧
      w.nextAddr = vm.nextAddr :=
  ⟨{ vm with stack := vm.stack.dropLast }, pop_ok h, rfl, rfl, rfl, rfl⟩

theorem push_ok_ex {vm : VM} (v : Nat) (h : ¬ vm.stack.length > STACK_MAX_SIZE) :
    ∃ w, push vm v = .ok w ∧ w.stack = vm.stack ++ [v] ∧
      w.registry = vm.registry ∧ w.numObjects = vm.numObjects :=
  ⟨{ vm with stack := vm.stack ++ [v] }, push_ok h, rfl, rfl, rfl⟩

/-- Success behavior of `pushPair` on a stack with at least two entries
(and at most `STACK_MAX_SIZE + 2`, so that the final internal push cannot
overflow): the first pop becomes `tail`, the second pop becomes `head`. -/
theorem pushPair_ok (vm : VM) (h2 : 2 ≤ vm.stack.length)
    (hmax : vm.stack.length ≤ STACK_MAX_SIZE + 2) :
    ∃ vm2 tl hd,
      vm.stack.getLast? = some tl ∧
      vm.stack.dropLast.getLast? = some hd ∧
      pushPair vm = .ok (vm2, vm.nextAddr) ∧
      vm2.stack = vm.stack.dropLast.dropLast ++ [vm.nextAddr] ∧
      vm2.stack.length = vm.stack.length - 1 ∧
      vm2.numObjects = vm.numObjects + 1 ∧
      lookupObj vm2.registry vm.nextAddr = some ⟨false, .pairVal hd tl⟩ := by
  have hne : vm.stack ≠ [] := by
    intro he
    rw [he] at h2
    exact absurd h2 (by simp)
  obtain ⟨tl, htl⟩ := Option.isSome_iff_exists.mp (List.getLast?_isSome.mpr hne)
  have hned : vm.stack.dropLast ≠ [] := by
    intro he
    have := congrArg List.length he
    rw [List.length_dropLast] at this
    simp at this
    omega
  obtain ⟨hd, hhd⟩ := Option.isSome_iff_exists.mp (List.getLast?_isSome.mpr hned)
  have hX : (newObject vm .PAIR_TYPE).1.stack.getLast? = some tl := by
    rw [newObject_stack]
    exact htl
  obtain ⟨w1, e1, hw1s, hw1r, hw1n, hw1x⟩ := pop_ok_ex hX
  rw [newObject_stack] at hw1s
  have hY : (setTail w1 (newObject vm .PAIR_TYPE).2 tl).stack.getLast? = some hd := by
    rw [setTail_stack, hw1s]
    exact hhd
  obtain ⟨w2, e2, hw2s, hw2r, hw2n, hw2x⟩ := pop_ok_ex hY
  rw [setTail_stack, hw1s] at hw2s
  have hZ : ¬ (setHead w2 (newObject vm .PAIR_TYPE).2 hd).stack.length > STACK_MAX_SIZE := by
    rw [setHead_stack, hw2s, List.length_dropLast, List.length_dropLast]
    omega
  obtain ⟨w3, e3, hw3s, hw3r, hw3n⟩ := push_ok_ex (newObject vm .PAIR_TYPE).2 hZ
  rw [setHead_stack, hw2s] at hw3s
  simp only [pushPair, e1, e2, e3]
  rw [newObject_addr]
  refine ⟨w3, tl, hd, htl, hhd, rfl, ?_, ?_, ?_, ?_⟩
  · rw [hw3s, newObject_addr]
  · rw [hw3s, List.length_append, List.length_dropLast, List.length_dropLast]
    simp
    omega
  · rw [hw3n, setHead_numObjects, hw2n, setTail_numObjects, hw1n, newObject_numObjects]
  · rw [hw3r, setHead_registry, hw2r, setTail_registry, hw1r, newObject_registry,
      newObject_addr, overObj_cons, if_pos rfl, overObj_cons, if_pos rfl]
    simp [lookupObj, initPayload]

/-- Underflow behavior of `pushPair` on a stack with fewer than two
entries: the pair has already been allocated and registered (so the object
count has been incremented) and, when one entry was present, it has been
popped, before StackUnderflow is reported. -/
theorem pushPair_underflow (vm : VM) (hlt : vm.stack.length < 2) :
    ∃ w, pushPair vm = .error (.stackUnderflow, w) ∧
      w.stack = vm.stack.dropLast ∧ w.numObjects = vm.numObjects + 1 := by
  cases hs : vm.stack with
  | nil =>
    have e1 : pop (newObject vm .PAIR_TYPE).1 =
        .error (.stackUnderflow, (newObject vm .PAIR_TYPE).1) :=
      pop_error (by rw [newObject_stack]; exact hs)
    simp only [pushPair, e1]
    refine ⟨_, rfl, ?_, ?_⟩
    · rw [newObject_stack, hs]
      rfl
    · rw [newObject_numObjects]
  | cons x s2 =>
    cases s2 with
    | nil =>
      have hX : (newObject vm .PAIR_TYPE).1.stack.getLast? = some x := by
        rw [newObject_stack, hs]
        rfl
      obtain ⟨w1, e1, hw1s, hw1r, hw1n, hw1x⟩ := pop_ok_ex hX
      rw [newObject_stack, hs] at hw1s
      have e2 : pop (setTail w1 (newObject vm .PAIR_TYPE).2 x) =
          .error (.stackUnderflow, setTail w1 (newObject vm .PAIR_TYPE).2 x) := by
        refine pop_error ?_
        rw [setTail_stack, hw1s]
        rfl
      simp only [pushPair, e1, e2]
      refine ⟨_, rfl, ?_, ?_⟩
      · rw [setTail_stack, hw1s]
      · rw [setTail_numObjects, hw1n, newObject_numObjects]
    | cons y s3 =>
      rw [hs] at hlt
      simp at hlt
      omega

/-! ## Preservation of the all-unmarked invariant -/

theorem allUnmarked_overObj {R : Heap} (h : ∀ p ∈ R, p.2.marked = false)
    (a : Nat) (f : Object → Object) (hf : ∀ o, (f o).marked = o.marked) :
    ∀ p ∈ overObj R a f, p.2.marked = false := by
  intro p hp
  obtain ⟨q, hq, rfl⟩ := List.mem_map.mp hp
  by_cases hqa : q.1 = a
  · simp only [if_pos hqa]
    rw [hf]
    exact h q hq
  · simp only [if_neg hqa]
    exact h q hq

theorem gc_allUnmarked (vm : VM) : AllUnmarked (gc vm) := by
  intro p hp
  exact sweepList_allUnmarked _ p hp

theorem newObject_allUnmarked (vm : VM) (t : ObjectType) (h : AllUnmarked vm) :
    AllUnmarked (newObject vm t).1 := by
  intro p hp
  rw [newObject_registry] at hp
  cases List.mem_cons.mp hp with
  | inl he => rw [he]
  | inr hm =>
    by_cases hgc : vm.numObjects = vm.maxObjects
    · rw [if_pos hgc] at hm
      exact gc_allUnmarked vm p hm
    · rw [if_neg hgc] at hm
      exact h p hm

theorem setValue_registry (vm : VM) (a : Nat) (v : Int) :
    (setValue vm a v).registry =
      overObj vm.registry a (fun o => { o with payload := .intVal v }) := rfl

theorem setValue_allUnmarked {vm : VM} (h : AllUnmarked vm) (a : Nat) (v : Int) :
    AllUnmarked (setValue vm a v) := by
  intro p hp
  rw [setValue_registry] at hp
  refine allUnmarked_overObj h a _ ?_ p hp
  intro o
  rfl

theorem setTail_allUnmarked {vm : VM} (h : AllUnmarked vm) (a t : Nat) :
    AllUnmarked (setTail vm a t) := by
  intro p hp
  rw [setTail_registry] at hp
  refine allUnmarked_overObj h a _ ?_ p hp
  intro o
  rfl

theorem setHead_allUnmarked {vm : VM} (h : AllUnmarked vm) (a hh : Nat) :
    AllUnmarked (setHead vm a hh) := by
  intro p hp
  rw [setHead_registry] at hp
  refine allUnmarked_overObj h a _ ?_ p hp
  intro o
  rfl

theorem pushInt_allUnmarked {vm : VM} (h : AllUnmarked vm) (i : Int) :
    (∀ v, pushInt vm i = .ok v → AllUnmarked v) ∧
    (∀ e w, pushInt vm i = .error (e, w) → AllUnmarked w) := by
  have hA : AllUnmarked
      (setValue (newObject vm .INT_TYPE).1 (newObject vm .INT_TYPE).2 i) :=
    setValue_allUnmarked (newObject_allUnmarked vm .INT_TYPE h) _ i
  constructor
  · intro v hv
    have hv2 : push (setValue (newObject vm .INT_TYPE).1 (newObject vm .INT_TYPE).2 i)
        (newObject vm .INT_TYPE).2 = .ok v := hv
    obtain ⟨hr, _⟩ := push_ok_registry hv2
    intro p hp
    rw [hr] at hp
    exact hA p hp
  · intro e w hw
    have hw2 : push (setValue (newObject vm .INT_TYPE).1 (newObject vm .INT_TYPE).2 i)
        (newObject vm .INT_TYPE).2 = .error (e, w) := hw
    obtain ⟨_, hwe⟩ := push_error_eq hw2
    intro p hp
    rw [hwe] at hp
    exact hA p hp

theorem pushPair_allUnmarked {vm : VM} (h : AllUnmarked vm) :
    (∀ v r, pushPair vm = .ok (v, r) → AllUnmarked v) ∧
    (∀ e w, pushPair vm = .error (e, w) → AllUnmarked w) := by
  have h1 : AllUnmarked (newObject vm .PAIR_TYPE).1 :=
    newObject_allUnmarked vm .PAIR_TYPE h
  cases hp1 : pop (newObject vm .PAIR_TYPE).1 with
  | error e1 =>
    obtain ⟨e1a, e1b⟩ := e1
    obtain ⟨_, he1b⟩ := pop_error_eq hp1
    have key : pushPair vm = .error (e1a, e1b) := by
      simp only [pushPair, hp1]
    constructor
    · intro v r hv
      exact Except.noConfusion (key.symm.trans hv)
    · intro e w hw
      have h2 := key.symm.trans hw
      injection h2 with hpair
      injection hpair with _ hwe
      intro p hp
      rw [← hwe, he1b] at hp
      exact h1 p hp
  | ok p1 =>
    obtain ⟨w1, t1⟩ := p1
    have hw1 : AllUnmarked w1 := by
      obtain ⟨hr, _⟩ := pop_ok_registry hp1
      intro p hp
      rw [hr] at hp
      exact h1 p hp
    have h2 : AllUnmarked (setTail w1 (newObject vm .PAIR_TYPE).2 t1) :=
      setTail_allUnmarked hw1 _ t1
    cases hp2 : pop (setTail w1 (newObject vm .PAIR_TYPE).2 t1) with
    | error e2 =>
      obtain ⟨e2a, e2b⟩ := e2
      obtain ⟨_, he2b⟩ := pop_error_eq hp2
      have key : pushPair vm = .error (e2a, e2b) := by
        simp only [pushPair, hp1, hp2]
      constructor
      · intro v r hv
        exact Except.noConfusion (key.symm.trans hv)
      · intro e w hw
        have h3 := key.symm.trans hw
        injection h3 with hpair
        injection hpair with _ hwe
        intro p hp
        rw [← hwe, he2b] at hp
        exact h2 p hp
    | ok p2 =>
      obtain ⟨w2, t2⟩ := p2
      have hw2 : AllUnmarked w2 := by
        obtain ⟨hr, _⟩ := pop_ok_registry hp2
        intro p hp
        rw [hr] at hp
        exact h2 p hp
      have h3 : AllUnmarked (setHead w2 (newObject vm .PAIR_TYPE).2 t2) :=
        setHead_allUnmarked hw2 _ t2
      cases hp3 : push (setHead w2 (newObject vm .PAIR_TYPE).2 t2)
          (newObject vm .PAIR_TYPE).2 with
      | error e3 =>
        obtain ⟨e3a, e3b⟩ := e3
        obtain ⟨_, he3b⟩ := push_error_eq hp3
        have key : pushPair vm = .error (e3a, e3b) := by
          simp only [pushPair, hp1, hp2, hp3]
        constructor
        · intro v r hv
          exact Except.noConfusion (key.symm.trans hv)
        · intro e w hw
          have h4 := key.symm.trans hw
          injection h4 with hpair
          injection hpair with _ hwe
          intro p hp
          rw [← hwe, he3b] at hp
          exact h3 p hp
      | ok w3 =>
        have hw3 : AllUnmarked w3 := by
          obtain ⟨hr, _⟩ := push_ok_registry hp3
          intro p hp
          rw [hr] at hp
          exact h3 p hp
        have key : pushPair vm = .ok (w3, (newObject vm .PAIR_TYPE).2) := by
          simp only [pushPair, hp1, hp2, hp3]
        constructor
        · intro v r hv
          have h4 := key.symm.trans hv
          injection h4 with hpair
          injection hpair with hv3 _
          intro p hp
          rw [← hv3] at hp
          exact hw3 p hp
        · intro e w hw
          exact Except.noConfusion (key.symm.trans hw)

theorem pop_allUnmarked {vm : VM} (h : AllUnmarked vm) :
    (∀ w x, pop vm = .ok (w, x) → AllUnmarked w) ∧
    (∀ e w, pop vm = .error (e, w) → AllUnmarked w) := by
  constructor
  · intro w x hw
    obtain ⟨hr, _⟩ := pop_ok_registry hw
    intro p hp
    rw [hr] at hp
    exact h p hp
  · intro e w hw
    obtain ⟨_, hwe⟩ := pop_error_eq hw
    intro p hp
    rw [hwe] at hp
    exact h p hp

/-! ## Concrete states used by the claim theorems -/

/-- Extract the carried VM from a `VM`-valued operation result. -/
def okVM : Except (GCError × VM) VM → VM
  | .ok v => v
  | .error (_, v) => v

/-- Extract the carried VM from a `(VM, addr)`-valued operation result. -/
def okVMp : Except (GCError × VM) (VM × Nat) → VM
  | .ok (v, _) => v
  | .error (_, v) => v

def isOkE {α : Type} : Except (GCError × VM) α → Bool
  | .ok _ => true
  | .error _ => false

def vmC1w : VM :=
  { stack := [2],
    registry := [(2, ⟨false, .pairVal 0 1⟩), (1, ⟨false, .intVal 1⟩), (0, ⟨false, .intVal 0⟩)],
    numObjects := 3, maxObjects := 16, nextAddr := 3 }

def vmC2x : VM :=
  { stack := [], registry := [(0, ⟨false, .intVal 7⟩)],
    numObjects := 1, maxObjects := 16, nextAddr := 1 }

def vmC3x : VM :=
  { stack := [], registry := [(1, ⟨true, .intVal 4⟩), (0, ⟨false, .intVal 7⟩)],
    numObjects := 2, maxObjects := 16, nextAddr := 2 }

def vmC4x : VM :=
  { stack := [], registry := [(5, ⟨false, .intVal 3⟩)],
    numObjects := 1, maxObjects := 7, nextAddr := 6 }

def demo0 : VM := newVM

def demo1 : VM := okVM (pushInt demo0 0)

def demo2 : VM := okVM (pushInt demo1 1)

def demo3 : VM := okVM (pushInt demo2 2)

def demo4 : VM := okVMp (pushPair demo3)

def demo5 : VM := okVMp (pushPair demo4)

def demo6 : VM := okVMp (pop demo5)

def vmC6a : VM :=
  { stack := List.replicate STACK_MAX_SIZE 0, registry := [],
    numObjects := 0, maxObjects := 16, nextAddr := 0 }

def vmC6b : VM :=
  { stack := List.replicate (STACK_MAX_SIZE + 1) 0, registry := [],
    numObjects := 0, maxObjects := 16, nextAddr := 0 }

def vmC7w : VM :=
  { stack := [10, 11], registry := [(11, ⟨false, .intVal 1⟩), (10, ⟨false, .intVal 0⟩)],
    numObjects := 2, maxObjects := 16, nextAddr := 12 }

def vmC7u : VM :=
  { stack := [10], registry := [(10, ⟨false, .intVal 0⟩)],
    numObjects := 1, maxObjects := 16, nextAddr := 11 }

def vmCyc : VM :=
  { stack := [], registry := [(0, ⟨false, .pairVal 1 1⟩), (1, ⟨false, .pairVal 0 0⟩)],
    numObjects := 2, maxObjects := 16, nextAddr := 2 }

def vmCycLive : VM :=
  { stack := [0], registry := [(0, ⟨false, .pairVal 1 1⟩), (1, ⟨false, .pairVal 0 0⟩)],
    numObjects := 2, maxObjects := 16, nextAddr := 2 }

def vmC9 : VM :=
  { stack := [3], registry := [(3, ⟨false, .intVal 5⟩)],
    numObjects := 1, maxObjects := 16, nextAddr := 4 }

def vmC9after : VM :=
  { stack := [], registry := [(4, ⟨false, .pairVal 0 3⟩), (3, ⟨false, .intVal 5⟩)],
    numObjects := 2, maxObjects := 16, nextAddr := 5 }

def vmC10w : VM :=
  { stack := [1], registry := [(1, ⟨false, .intVal 9⟩)],
    numObjects := 1, maxObjects := 16, nextAddr := 2 }

/-! ## The claims -/

/-- C1: for every well-formed VM state with any root stack and any object
graph (shared and cyclic pairs included), after running `gc` every object
reachable from some stack entry via zero or more pair head/tail traversals
is still present in the registry chain, i.e. has not been freed. -/
theorem C1_reachability_soundness (vm : VM) (hwf : WF vm) (b : Nat)
    (hreach : Reachable vm.registry vm.stack b) :
    b ∈ heapKeys (gc vm).registry := by
  obtain ⟨hnd, hstack, hclosed, hunm⟩ := hwf
  have hinv : InvExc vm.registry (fun _ => False) := by
    intro c o hd tl _ hlook hmark _
    have hc : o.marked = false := hunm (c, o) (lookup_mem hlook)
    rw [hc] at hmark
    exact Bool.noConfusion hmark
  obtain ⟨hev, hinvf, hroots⟩ := foldMark_spec vm.stack vm.registry hinv
  have hmarked := reachable_markedIn hev hinvf hroots hstack hclosed b hreach
  exact mem_sweepList_of_marked hmarked

theorem C1_reachability_soundness_witness :
    WF vmC1w ∧ Reachable vmC1w.registry vmC1w.stack 0 ∧
    0 ∈ heapKeys (gc vmC1w).registry := by
  have hreach : Reachable vmC1w.registry vmC1w.stack 0 :=
    Reachable.head 2 0 1 ⟨false, .pairVal 0 1⟩
      (Reachable.root 2 (by decide)) (by decide) rfl
  exact ⟨by decide, hreach, C1_reachability_soundness vmC1w (by decide) 0 hreach⟩

/-- C2 (divergence witness): `gc` does unlink the unreachable object at
address 0 from the registry chain, but `numObjects` still counts it — the
C `sweep` never decrements `vm->numObjects`, so the freed object keeps
contributing to the live object count, contrary to the claim. -/
theorem C2_unreachable_freed_but_counted :
    (gc vmC2x).registry = [] ∧ (gc vmC2x).numObjects = 1 := by decide

/-- C3 (divergence witness): during `sweep` the unmarked object at address
0 is unlinked and the marked one at address 1 is unmarked and retained, but
`numObjects` is NOT decremented: after the sweep `numObjects = 2` while
only 1 object remains in the registry chain, refuting the claim that the
count is decremented per freed object and equals the chain length. -/
theorem C3_sweep_does_not_decrement_count :
    (sweep vmC3x).registry = [(1, ⟨false, .intVal 4⟩)] ∧
    (sweep vmC3x).numObjects = 2 ∧
    (sweep vmC3x).registry.length = 1 := by decide

/-- C4 (divergence witness): a collection that leaves k = 0 live objects
in the chain sets `maxObjects` to `2 * numObjects = 2` (from the stale,
never-decremented count), not `2 * k = 0` as the claim states. -/
theorem C4_threshold_uses_stale_count :
    (gc vmC4x).registry.length = 0 ∧ (gc vmC4x).maxObjects = 2 := by decide

/-- C5 (divergence witness): running the demo sequence push 0, push 1,
push 2, build-pair, build-pair, pop does pass through the claimed
intermediate states (live counts 3, 4, 5 and stack depths 3, 2, 1, then
depth 0 with count still 5), and the forced `gc` empties the registry
chain; but the final live object count (`numObjects`) is 5, not 0, and
the threshold becomes 10, not 0, because `sweep` never decrements
`numObjects`. -/
theorem C5_demo_trace :
    isOkE (pushInt demo0 0) = true ∧ isOkE (pushInt demo1 1) = true ∧
    isOkE (pushInt demo2 2) = true ∧ isOkE (pushPair demo3) = true ∧
    isOkE (pushPair demo4) = true ∧ isOkE (pop demo5) = true ∧
    demo3.numObjects = 3 ∧ demo3.stack.length = 3 ∧
    demo4.numObjects = 4 ∧ demo4.stack.length = 2 ∧
    demo5.numObjects = 5 ∧ demo5.stack.length = 1 ∧
    demo6.numObjects = 5 ∧ demo6.stack.length = 0 ∧
    (gc demo6).registry = [] ∧ (gc demo6).numObjects = 5 ∧
    (gc demo6).maxObjects = 10 := by decide

set_option maxRecDepth 4000 in
/-- C6 (divergence witness): with the stack exactly at capacity
(`stackSize = STACK_MAX_SIZE = 256`) the C `push` does NOT signal overflow
— its check is `stackSize > STACK_MAX_SIZE` — and it writes at index 256,
outside the bounds [0, 256) of the C array; only with `stackSize = 257`
is StackOverflow signalled.  This refutes the claim that overflow fires
exactly at capacity and that no out-of-bounds index is written. -/
theorem C6_overflow_check_off_by_one :
    vmC6a.stack.length = STACK_MAX_SIZE ∧
    push vmC6a 7 = .ok { vmC6a with stack := vmC6a.stack ++ [7] } ∧
    (okVM (push vmC6a 7)).stack.length = STACK_MAX_SIZE + 1 ∧
    push vmC6b 7 = .error (.stackOverflow, vmC6b) := by decide

/-- C7: with at least two stack entries, `pushPair` pops the most recently
pushed entry into the pair tail (second field) and the next into the head
(first field), registers the pair and pushes its address: net stack depth
change is minus one, the live count (`numObjects`) increases by exactly
one; with fewer than two entries it fails with StackUnderflow. -/
theorem C7_pushPair_correct (vm : VM) :
    (2 ≤ vm.stack.length → vm.stack.length ≤ STACK_MAX_SIZE + 2 →
      ∃ vm2 tl hd,
        vm.stack.getLast? = some tl ∧
        vm.stack.dropLast.getLast? = some hd ∧
        pushPair vm = .ok (vm2, vm.nextAddr) ∧
        vm2.stack = vm.stack.dropLast.dropLast ++ [vm.nextAddr] ∧
        vm2.stack.length = vm.stack.length - 1 ∧
        vm2.numObjects = vm.numObjects + 1 ∧
        lookupObj vm2.registry vm.nextAddr = some ⟨false, .pairVal hd tl⟩) ∧
    (vm.stack.length < 2 → ∃ w, pushPair vm = .error (.stackUnderflow, w)) :=
  ⟨fun h2 hmax => pushPair_ok vm h2 hmax,
   fun hlt => (pushPair_underflow vm hlt).elim (fun w hw => ⟨w, hw.1⟩)⟩

theorem C7_pushPair_correct_witness :
    2 ≤ vmC7w.stack.length ∧ vmC7w.stack.length ≤ STACK_MAX_SIZE + 2 ∧
    (∃ vm2 tl hd,
      vmC7w.stack.getLast? = some tl ∧
      vmC7w.stack.dropLast.getLast? = some hd ∧
      pushPair vmC7w = .ok (vm2, vmC7w.nextAddr) ∧
      vm2.stack = vmC7w.stack.dropLast.dropLast ++ [vmC7w.nextAddr] ∧
      vm2.stack.length = vmC7w.stack.length - 1 ∧
      vm2.numObjects = vmC7w.numObjects + 1 ∧
      lookupObj vm2.registry vmC7w.nextAddr = some ⟨false, .pairVal hd tl⟩) ∧
    vmC7u.stack.length < 2 ∧
    (∃ w, pushPair vmC7u = .error (.stackUnderflow, w)) :=
  ⟨by decide, by decide,
   (C7_pushPair_correct vmC7w).1 (by decide) (by decide),
   by decide,
   (C7_pushPair_correct vmC7u).2 (by decide)⟩

/-- C8: the mark recursion terminates on every object graph, cycles and
sharing included: any fuel beyond the number of unmarked objects computes
the same heap as `mark` (the recursion needs only finitely many steps,
because visiting an already-marked object returns immediately); moreover a
concrete two-pair cycle unreachable from the roots is fully collected by
the following sweep, while the same cycle reachable from the stack is
retained intact. -/
theorem C8_mark_terminates :
    (∀ (n : Nat) (heap : Heap) (a : Nat), unmarkedCount heap < n →
        markFuel n heap a = mark heap a) ∧
    (gc vmCyc).registry = [] ∧
    (gc vmCycLive).registry =
      [(0, ⟨false, .pairVal 1 1⟩), (1, ⟨false, .pairVal 0 0⟩)] := by
  refine ⟨fun n heap a hn => ?_, by decide, by decide⟩
  exact markFuel_congr (unmarkedCount heap) heap a n (unmarkedCount heap + 1)
    (Nat.le_refl _) hn (Nat.lt_succ_self _)

theorem C8_mark_terminates_witness :
    unmarkedCount vmCyc.registry < 7 ∧
    markFuel 7 vmCyc.registry 0 = mark vmCyc.registry 0 :=
  ⟨by decide, C8_mark_terminates.1 7 vmCyc.registry 0 (by decide)⟩

/-- C9 counterexample: `pushPair` on a one-entry stack reports
StackUnderflow, but at the exit point the VM state has been mutated: the
new pair object has been allocated and linked into the registry, the
object count has been incremented, and the single stack entry has been
popped — the stack contents, registry chain and object count are NOT as
they were before the call, refuting the claim. -/
theorem C9_underflow_mutates_state :
    pushPair vmC9 = .error (.stackUnderflow, vmC9after) ∧
    vmC9after.numObjects ≠ vmC9.numObjects ∧
    vmC9after.stack ≠ vmC9.stack ∧
    vmC9after.registry ≠ vmC9.registry := by decide

/-- C9 amended: `push` on overflow and `pop` on underflow leave the VM
exactly as it was; but `pushPair` on underflow reports the error only
after allocating and registering the new pair (incrementing the object
count by one, possibly running a collection) and popping the stack down
to `dropLast`. -/
theorem C9_error_path_states (vm : VM) :
    (∀ v e w, push vm v = .error (e, w) → w = vm) ∧
    (∀ e w, pop vm = .error (e, w) → w = vm) ∧
    (vm.stack.length < 2 →
      ∃ w, pushPair vm = .error (.stackUnderflow, w) ∧
        w.stack = vm.stack.dropLast ∧ w.numObjects = vm.numObjects + 1) :=
  ⟨fun _ _ _ h => (push_error_eq h).2,
   fun _ _ h => (pop_error_eq h).2,
   fun hlt => pushPair_underflow vm hlt⟩

theorem C9_error_path_states_witness :
    pop newVM = .error (.stackUnderflow, newVM) ∧ newVM = newVM ∧
    vmC9.stack.length < 2 ∧
    (∃ w, pushPair vmC9 = .error (.stackUnderflow, w) ∧
      w.stack = vmC9.stack.dropLast ∧ w.numObjects = vmC9.numObjects + 1) :=
  ⟨by decide, (C9_error_path_states newVM).2.1 .stackUnderflow newVM (by decide),
   by decide, (C9_error_path_states vmC9).2.2 (by decide)⟩

/-- C10: outside a collection cycle every registered object is unmarked:
`gc` always returns with all marks cleared, a newly allocated object is
created unmarked, and each public operation (`pushInt`, `pushPair`, `pop`,
allocation with or without a triggered collection, forced `gc`) preserves
the all-unmarked invariant in the state it returns — on its success path
and in the state carried by its error path alike. -/
theorem C10_unmarked_outside_collection (vm : VM) (h : AllUnmarked vm) :
    AllUnmarked (gc vm) ∧
    (∀ t, AllUnmarked (newObject vm t).1) ∧
    (∀ i v, pushInt vm i = .ok v → AllUnmarked v) ∧
    (∀ i e w, pushInt vm i = .error (e, w) → AllUnmarked w) ∧
    (∀ v r, pushPair vm = .ok (v, r) → AllUnmarked v) ∧
    (∀ e w, pushPair vm = .error (e, w) → AllUnmarked w) ∧
    (∀ w x, pop vm = .ok (w, x) → AllUnmarked w) ∧
    (∀ e w, pop vm = .error (e, w) → AllUnmarked w) :=
  ⟨gc_allUnmarked vm,
   fun t => newObject_allUnmarked vm t h,
   fun i v hv => (pushInt_allUnmarked h i).1 v hv,
   fun i e w hw => (pushInt_allUnmarked h i).2 e w hw,
   fun v r hv => (pushPair_allUnmarked h).1 v r hv,
   fun e w hw => (pushPair_allUnmarked h).2 e w hw,
   fun w x hw => (pop_allUnmarked h).1 w x hw,
   fun e w hw => (pop_allUnmarked h).2 e w hw⟩

theorem C10_unmarked_outside_collection_witness :
    AllUnmarked vmC10w ∧ AllUnmarked (gc vmC10w) :=
  ⟨by decide, (C10_unmarked_outside_collection vmC10w (by decide)).1⟩

end GC
